import Mathlib

/-!
Shallow embedding of `src/blocks/model.py` (classes `Model`, `Path`,
`Selector`) for verification of the specification's claims.

Python exceptions are modelled with `Except PyError`; Python object
identity is modelled by giving bricks, parameters and graph variables a
numeric id field, so that structural equality of the embedded values
plays the role of reference equality of the Python objects.
-/

namespace Blocks

/-- Exceptions that the embedded code can raise. -/
inductive PyError where
  | assertionError
  | valueError
  | nameError
  | attributeError
  | duplicatePathError
  deriving DecidableEq, Repr

/-! ### Path (`class Path`, model.py lines 60-133) -/

/-- Source constant `Path.separator = "/"`. -/
def separator : String := "/"

/-- Source constant `Path.param_separator = "."`. -/
def param_separator : String := "."

/-- A path node: `Path.BrickName` or `Path.ParamName`, both `str`
subclasses in the source whose content is the name string. -/
inductive Segment where
  | brick (name : String)
  | param (name : String)
  deriving DecidableEq, Repr

/-- The underlying string content of a segment (both `BrickName` and
`ParamName` are plain `str` subclasses). -/
def Segment.name : Segment → String
  | .brick n => n
  | .param n => n

/-- Method `part()`: `BrickName` prepends `Path.separator`, `ParamName` prepends
`Path.param_separator`. -/
def Segment.part : Segment → String
  | .brick n => separator ++ n
  | .param n => param_separator ++ n

/-- Structure holding `Path.nodes`, the tuple of path nodes. -/
structure Path where
  nodes : List Segment
  deriving DecidableEq, Repr

/-- Python string equality of two segments: `str.__eq__` compares the
underlying characters and ignores which `str` subclass each side is. -/
def Segment.pyEq : Segment → Segment → Bool
  | .brick a, .brick b => a == b
  | .brick a, .param b => a == b
  | .param a, .brick b => a == b
  | .param a, .param b => a == b

/-- Embeds `Path.__eq__`: `self.nodes == other.nodes`, Python tuple equality,
which is element-wise `str` equality. -/
def Path.pyEq (p q : Path) : Bool :=
  p.nodes.length == q.nodes.length &&
    (List.zip p.nodes q.nodes).all fun sp => Segment.pyEq sp.1 sp.2

/-- Hash of a segment: neither `BrickName` nor `ParamName` defines
`__hash__`, so both inherit `str.__hash__`, a function `h` of the
character content only. -/
def Segment.pyHash (h : String → Nat) : Segment → Nat
  | .brick n => h n
  | .param n => h n

/-- Embeds `Path.__hash__`: `hash(self.nodes)`, the tuple hash `ht` applied to
the element hashes. -/
def Path.pyHash (h : String → Nat) (ht : List Nat → Nat) (p : Path) : Nat :=
  ht (p.nodes.map (Segment.pyHash h))

/-- The `"".join` of a list of strings. -/
def strJoin : List String → String
  | [] => ""
  | s :: rest => s ++ strJoin rest

/-- Embeds `Path.__str__`: `"".join([node.part() for node in self.nodes])`. -/
def Path.str (p : Path) : String :=
  strJoin (p.nodes.map Segment.part)

/-- Embeds `Path.__add__`: concatenation of the node tuples. -/
def Path.add (p q : Path) : Path :=
  ⟨p.nodes ++ q.nodes⟩

/-- Whether a character is matched by the class `[/.]` of
`Path.separator_re`. -/
def isSepChar (c : Char) : Bool :=
  String.singleton c == separator || String.singleton c == param_separator

/-- Model of `re.split("([/.])", s)` on the character list of `s`: the
result alternates (possibly empty) separator-free chunks with the
captured one-character separators, beginning and ending with a chunk. -/
def reSplitList : List Char → List String
  | [] => [""]
  | c :: cs =>
    let rest := reSplitList cs
    if isSepChar c then
      "" :: String.singleton c :: rest
    else
      match rest with
      | r :: rs => (String.singleton c ++ r) :: rs
      | [] => [String.singleton c]

/-- Embeds `Path.separator_re.split(string)`. -/
def reSplit (s : String) : List String :=
  reSplitList s.data

/-- Every other element of a list starting with the first: Python's
`l[::2]`. -/
def everyOther {α : Type} : List α → List α
  | [] => []
  | [a] => [a]
  | a :: _ :: rest => a :: everyOther rest

/-- The separator dispatch inside `Path.parse`'s loop: `if separator ==
Path.separator` append a `BrickName`; `elif Path.param_separator ==
Path.param_separator` (the degenerate comparison written in the source)
append a `ParamName`; `else raise ValueError`. -/
def parseNode (sep : String) (part : String) : Except PyError Segment :=
  if sep == separator then
    .ok (.brick part)
  else if param_separator == param_separator then
    .ok (.param part)
  else
    .error .valueError

/-- The loop of `Path.parse` over `zip(separators, parts)`. -/
def parseNodes : List (String × String) → Except PyError (List Segment)
  | [] => .ok []
  | sp :: rest =>
    match parseNode sp.1 sp.2 with
    | .error e => .error e
    | .ok node =>
      match parseNodes rest with
      | .error e => .error e
      | .ok nodes => .ok (node :: nodes)

/-- Embeds `Path.parse`: split on the separator regexp, drop the first element,
take `elements[::2]` as separators and `elements[1::2]` as parts, assert
`len(elements) == 2 * len(separators) == 2 * len(parts)`, then dispatch
on each separator. -/
def Path.parse (string : String) : Except PyError Path :=
  let elements := (reSplit string).drop 1
  let separators := everyOther elements
  let parts := everyOther (elements.drop 1)
  if elements.length == 2 * separators.length
      && 2 * separators.length == 2 * parts.length then
    match parseNodes (List.zip separators parts) with
    | .error e => .error e
    | .ok nodes => .ok ⟨nodes⟩
  else
    .error .assertionError

example : Path.parse "/a.w" = .ok ⟨[.brick "a", .param "w"]⟩ := rfl
example : Path.parse "a/b" = .ok ⟨[.brick "b"]⟩ := rfl
example : Path.parse "abc" = .ok ⟨[]⟩ := rfl
example : Path.str ⟨[.brick "a", .param "w"]⟩ = "/a.w" := by decide

/-! ### Graph input resolver (`Model._get_variables`, model.py lines 42-58) -/

/-- The Theano type of a graph variable, as far as `is_input` inspects it:
`SharedVariable`, `TensorConstant`, `ScalarConstant`, or any other
variable class. -/
inductive VKind where
  | shared
  | tensorConst
  | scalarConst
  | plain
  deriving DecidableEq, Repr

/-- A Theano graph variable: either it has no `owner` (a leaf of some
kind), or its `owner` apply node exposes the ordered `inputs` list. The
`id` stands for the Python object identity. -/
inductive GVar where
  | leaf (id : Nat) (kind : VKind)
  | apply (id : Nat) (inputs : List GVar)

mutual

def GVar.decEq : (a b : GVar) → Decidable (a = b)
  | .leaf i k, .leaf j l =>
    if h1 : i = j then
      if h2 : k = l then isTrue (by rw [h1, h2])
      else isFalse (fun he => by injection he with a b; exact h2 b)
    else isFalse (fun he => by injection he with a b; exact h1 a)
  | .leaf _ _, .apply _ _ => isFalse (fun he => GVar.noConfusion he)
  | .apply _ _, .leaf _ _ => isFalse (fun he => GVar.noConfusion he)
  | .apply i xs, .apply j ys =>
    if h1 : i = j then
      match GVar.decEqList xs ys with
      | isTrue h2 => isTrue (by rw [h1, h2])
      | isFalse h2 => isFalse (fun he => by injection he with a b; exact h2 b)
    else isFalse (fun he => by injection he with a b; exact h1 a)

def GVar.decEqList : (a b : List GVar) → Decidable (a = b)
  | [], [] => isTrue rfl
  | [], _ :: _ => isFalse (fun he => List.noConfusion he)
  | _ :: _, [] => isFalse (fun he => List.noConfusion he)
  | x :: xs, y :: ys =>
    match GVar.decEq x y with
    | isTrue h1 =>
      match GVar.decEqList xs ys with
      | isTrue h2 => isTrue (by rw [h1, h2])
      | isFalse h2 => isFalse (fun he => by injection he with a b; exact h2 b)
    | isFalse h1 => isFalse (fun he => by injection he with a b; exact h1 a)

end

instance : DecidableEq GVar := GVar.decEq

/-- Python `set.add` insertion, modelled on an insertion-ordered
duplicate-free list. -/
def setAdd (vs : List GVar) (v : GVar) : List GVar :=
  if v ∈ vs then vs else vs ++ [v]

mutual

/-- The inner `recursion` of `Model._get_variables`, with the mutable
`self.variables` set passed as explicit state. If `current.owner` is
falsy nothing happens; otherwise the loop walks `current.owner.inputs`,
and afterwards `self.variables.add(inp)` adds the leaked loop variable
`inp` — the LAST input — (a `NameError` if the loop never ran). -/
def recursion : GVar → List GVar → Except PyError (List GVar)
  | .leaf _ _, vars => .ok vars
  | .apply _ inputs, vars =>
    match recInputs inputs vars with
    | .error e => .error e
    | .ok vs =>
      match inputs.getLast? with
      | none => .error .nameError
      | some lastInp => .ok (setAdd vs lastInp)

/-- The `for inp in current.owner.inputs` loop: recurse into `inp` only
when it is not already in `self.variables`. -/
def recInputs : List GVar → List GVar → Except PyError (List GVar)
  | [], vars => .ok vars
  | inp :: rest, vars =>
    match (if inp ∈ vars then .ok vars else recursion inp vars) with
    | .error e => .error e
    | .ok vs => recInputs rest vs

end

/-- Embeds `is_input`: the variable has no `owner`, and is none of
`SharedVariable`, `TensorConstant`, `ScalarConstant`. -/
def is_input (v : GVar) : Bool :=
  match v with
  | .apply _ _ => false
  | .leaf _ k =>
    match k with
    | .shared => false
    | .tensorConst => false
    | .scalarConst => false
    | .plain => true

/-! ### Bricks and the Selector (`class Selector`, model.py lines 136-221) -/

/-- A brick parameter: a named leaf, `pid` standing for the Python object
identity (names may collide across bricks). -/
structure Param where
  pid : Nat
  name : String
  deriving DecidableEq, Repr

/-- A brick: `name`, ordered `children`, owned `params`; `bid` stands for
the Python object identity. -/
inductive Brick where
  | mk (bid : Nat) (name : String) (children : List Brick) (params : List Param)

mutual

def Brick.decEq : (a b : Brick) → Decidable (a = b)
  | .mk i n cs ps, .mk j m ds qs =>
    if h1 : i = j then
      if h2 : n = m then
        if h3 : ps = qs then
          match Brick.decEqList cs ds with
          | isTrue h4 => isTrue (by rw [h1, h2, h3, h4])
          | isFalse h4 => isFalse (fun he => by injection he with a b c d; exact h4 c)
        else isFalse (fun he => by injection he with a b c d; exact h3 d)
      else isFalse (fun he => by injection he with a b c d; exact h2 b)
    else isFalse (fun he => by injection he with a b c d; exact h1 a)

def Brick.decEqList : (a b : List Brick) → Decidable (a = b)
  | [], [] => isTrue rfl
  | [], _ :: _ => isFalse (fun he => List.noConfusion he)
  | _ :: _, [] => isFalse (fun he => List.noConfusion he)
  | x :: xs, y :: ys =>
    match Brick.decEq x y with
    | isTrue h1 =>
      match Brick.decEqList xs ys with
      | isTrue h2 => isTrue (by rw [h1, h2])
      | isFalse h2 => isFalse (fun he => by injection he with a b; exact h2 b)
    | isFalse h1 => isFalse (fun he => by injection he with a b; exact h1 a)

end

instance : DecidableEq Brick := Brick.decEq

def Brick.name : Brick → String
  | .mk _ n _ _ => n

def Brick.children : Brick → List Brick
  | .mk _ _ cs _ => cs

def Brick.params : Brick → List Param
  | .mk _ _ _ ps => ps

/-- Membership test of a key in a `Path`-keyed Python dict: dict lookup
uses `Path.__eq__` (via `__hash__`), i.e. `Path.pyEq`. -/
def odContains (m : List (Path × Param)) (k : Path) : Bool :=
  m.any fun kv => Path.pyEq kv.1 k

/-- Assignment `result[k] = v` on a `Path`-keyed `OrderedDict`: overwriting an
existing key keeps the original key object and its position; a new key
is appended at the end. -/
def odInsert (m : List (Path × Param)) (k : Path) (v : Param) : List (Path × Param) :=
  if odContains m k then
    m.map fun kv => if Path.pyEq kv.1 k then (kv.1, v) else kv
  else
    m ++ [(k, v)]

/-- Constructor `OrderedDict(pairs)`: insert the association pairs left to right. -/
def odOfList (l : List (Path × Param)) : List (Path × Param) :=
  l.foldl (fun m kv => odInsert m kv.1 kv.2) []

/-- The filter `if not param_name or param.name == param_name`: `None`
and the empty string are falsy. -/
def passFilter (param_name : Option String) (pname : String) : Bool :=
  match param_name with
  | none => true
  | some s => s.isEmpty || pname == s

mutual

/-- The inner `recursion` of `Selector.get_params`: an `OrderedDict`
from `Path([BrickName(brick.name), ParamName(param.name)])` to each
(filtered) owned parameter, then for each child every child entry is
re-inserted under `Path([BrickName(brick.name)]) + path`. -/
def collect (param_name : Option String) : Brick → List (Path × Param)
  | .mk _ bname children params =>
    let own : List (Path × Param) :=
      (params.filter fun p => passFilter param_name p.name).map
        fun p => (⟨[.brick bname, .param p.name]⟩, p)
    collectChildren param_name bname (odOfList own) children

/-- The `for child in brick.children` loop of the inner `recursion`,
threading the `result` dict. -/
def collectChildren (param_name : Option String) (bname : String)
    (result : List (Path × Param)) : List Brick → List (Path × Param)
  | [] => result
  | child :: rest =>
    let items := collect param_name child
    let next := items.foldl
      (fun res kv => odInsert res (Path.add ⟨[.brick bname]⟩ kv.1) kv.2) result
    collectChildren param_name bname next rest

end

/-- The list comprehension `[recursion(brick) for brick in self.bricks]`,
evaluated left to right; a `None` entry raises `AttributeError` when
`recursion` reads `brick.params`. -/
def collectAll (param_name : Option String) : List (Option Brick) → Except PyError (List (List (Path × Param)))
  | [] => .ok []
  | b :: rest =>
    match b with
    | none => .error .attributeError
    | some br =>
      let d := collect param_name br
      match collectAll param_name rest with
      | .error e => .error e
      | .ok ds => .ok (d :: ds)

/-- Modelled from the spec: `dict_union` lives in `blocks/utils.py`,
which is not under `src/`. Per the spec it unions the per-root mappings
left to right and a key collision (a key of the next mapping already
present in the accumulated result) is a fatal `DuplicatePathError`,
never resolved by last-write-wins. -/
def dict_union (dicts : List (List (Path × Param))) : Except PyError (List (Path × Param)) :=
  dicts.foldl
    (fun acc d =>
      match acc with
      | .error e => .error e
      | .ok result =>
        if d.any (fun kv => odContains result kv.1) then
          .error .duplicatePathError
        else
          .ok (d.foldl (fun r kv => odInsert r kv.1 kv.2) result))
    (.ok [])

/-- Assignment `result[k] = v` on the final `String`-keyed `OrderedDict`. -/
def strInsert (m : List (String × Param)) (k : String) (v : Param) : List (String × Param) :=
  if m.any (fun kv => kv.1 == k) then
    m.map fun kv => if kv.1 == k then (kv.1, v) else kv
  else
    m ++ [(k, v)]

/-- Embeds `OrderedDict((str(key), value) for key, value in result.items())`. -/
def strOD (l : List (Path × Param)) : List (String × Param) :=
  l.foldl (fun m kv => strInsert m (Path.str kv.1) kv.2) []

/-- Embeds `Selector.get_params`: collect per brick, `dict_union` the results,
convert the keys to their path strings. A `Selector` is represented by
its `bricks` list; entries may be `None` (the initial sentinel frontier
of `Selector.select` can reach here). -/
def Selector.get_params (bricks : List (Option Brick)) (param_name : Option String) : Except PyError (List (String × Param)) :=
  match collectAll param_name bricks with
  | .error e => .error e
  | .ok dicts =>
    match dict_union dicts with
    | .error e => .error e
    | .ok result => .ok (strOD result)

/-- What `Selector.select` returns: either a `Selector` over the final
frontier (which may contain the `None` sentinel), or the `.values()`
list of matched parameters. -/
inductive SelectResult where
  | sel (frontier : List (Option Brick))
  | params (values : List Param)

/-- The body of the `BrickName` arm of `Selector.select`'s loop: for
every member of the current frontier take its `children` (or the
selector's own bricks for the `None` sentinel), keep those whose `name`
equals the segment, and append each match to `next_bricks` unless
already present. -/
def selectStep (selfBricks : List Brick) (cur : List (Option Brick)) (bname : String) : List Brick :=
  cur.foldl
    (fun next b =>
      let children := match b with
        | some br => br.children
        | none => selfBricks
      let matching := children.filter fun child => child.name == bname
      matching.foldl (fun nb m => if m ∈ nb then nb else nb ++ [m]) next)
    []

/-- The `for node in path.nodes` loop of `Selector.select`, starting
from the sentinel frontier `[None]`: a `ParamName` segment
short-circuits into `Selector(current_bricks).get_params(node).values()`. -/
def selectLoop (selfBricks : List Brick) : List (Option Brick) → List Segment → Except PyError SelectResult
  | cur, [] => .ok (.sel cur)
  | cur, node :: rest =>
    match node with
    | .param pname =>
      match Selector.get_params cur (some pname) with
      | .error e => .error e
      | .ok od => .ok (.params (od.map Prod.snd))
    | .brick bname =>
      selectLoop selfBricks ((selectStep selfBricks cur bname).map some) rest

/-- Embeds `Selector.select` on an already-parsed `Path`. -/
def Selector.select (selfBricks : List Brick) (path : Path) : Except PyError SelectResult :=
  selectLoop selfBricks [none] path.nodes

/-! ### Model facade (`class Model`, model.py lines 11-58) -/

/-- Embeds `Model`: the tuple of top-level bricks and the cost variable. -/
structure Model where
  top_bricks : List Brick
  basic_cost : GVar

/-- Embeds `Model.cost`. -/
def Model.cost (m : Model) : GVar :=
  m.basic_cost

/-- Attribute `self.variables` as computed by `Model._get_variables`:
`recursion(self.cost())` starting from the empty set. -/
def Model.variables (m : Model) : Except PyError (List GVar) :=
  recursion m.cost []

/-- Attribute `self.input_variables`: the visited variables filtered by
`is_input` (the Python set comprehension order is modelled as insertion
order). -/
def Model.input_variables (m : Model) : Except PyError (List GVar) :=
  match Model.variables m with
  | .error e => .error e
  | .ok vs => .ok (vs.filter is_input)

/-- Embeds `Model.select`: `Selector(self.top_bricks)`, narrowed by the path if
one is given (`if path:` — `None` is falsy, a `Path` object is always
truthy). -/
def Model.select (m : Model) : Option Path → Except PyError SelectResult
  | none => .ok (.sel (m.top_bricks.map some))
  | some p => Selector.select m.top_bricks p

/-- Embeds `Model.get_params`: `self.select().get_params()`. -/
def Model.get_params (m : Model) : Except PyError (List (String × Param)) :=
  Selector.get_params (m.top_bricks.map some) none

/-! ### Auxiliary definitions used by the statements and proofs -/

/-- A valid segment name: one containing neither of the two reserved
separator characters. -/
def validName (s : String) : Bool :=
  s.data.all fun c => !(isSepChar c)

/-- The separator that `part()` prepends for a segment. -/
def sepOf : Segment → String
  | .brick _ => separator
  | .param _ => param_separator

/-- The element list that `Path.separator_re.split` produces from the
string form of a segment list (after the leading empty chunk). -/
def segFlat : List Segment → List String
  | [] => []
  | s :: rest => sepOf s :: s.name :: segFlat rest

def SelectResult.decEq : (a b : SelectResult) → Decidable (a = b)
  | .sel f, .sel g =>
    if h : f = g then isTrue (by rw [h])
    else isFalse (fun he => by injection he with a; exact h a)
  | .sel _, .params _ => isFalse (fun he => SelectResult.noConfusion he)
  | .params _, .sel _ => isFalse (fun he => SelectResult.noConfusion he)
  | .params p, .params q =>
    if h : p = q then isTrue (by rw [h])
    else isFalse (fun he => by injection he with a; exact h a)

instance : DecidableEq SelectResult := SelectResult.decEq

instance {ε α : Type} [DecidableEq ε] [DecidableEq α] : DecidableEq (Except ε α) :=
  fun a b =>
    match a, b with
    | .ok x, .ok y =>
      if h : x = y then isTrue (by rw [h])
      else isFalse (fun he => by injection he with a; exact h a)
    | .ok _, .error _ => isFalse (fun he => Except.noConfusion he)
    | .error _, .ok _ => isFalse (fun he => Except.noConfusion he)
    | .error e, .error f =>
      if h : e = f then isTrue (by rw [h])
      else isFalse (fun he => by injection he with a; exact h a)

/-! ### Concrete instances used to evaluate the code -/

/-- Graph leaf `a`, an externally-held `SharedVariable`. -/
def gA : GVar := .leaf 1 .shared

/-- Graph leaf `b`, a `TensorConstant`. -/
def gB : GVar := .leaf 2 .tensorConst

/-- Graph leaf `c`, a free input (no owner, not shared, not constant). -/
def gC : GVar := .leaf 3 .plain

/-- Cost node `f(a, b, c)`. -/
def gF : GVar := .apply 4 [gA, gB, gC]

/-- Model whose cost is `f(a, b, c)`. -/
def mF : Model := ⟨[], gF⟩

/-- Graph leaf `c`, a free input. -/
def gL1 : GVar := .leaf 1 .plain

/-- Graph leaf `d`, a free input. -/
def gL2 : GVar := .leaf 2 .plain

/-- Cost node `g(c, d)` over two free leaves. -/
def gG : GVar := .apply 3 [gL1, gL2]

/-- Model whose cost is `g(c, d)`. -/
def mG : Model := ⟨[], gG⟩

/-- Child brick named `c` owning the parameter `w` with identity 1. -/
def childW1 : Brick := .mk 1 "c" [] [⟨1, "w"⟩]

/-- A distinct child brick, also named `c`, owning its own parameter
`w` with identity 2. -/
def childW2 : Brick := .mk 2 "c" [] [⟨2, "w"⟩]

/-- Root brick `r` with two same-named children `c`, each owning a
parameter `w`. -/
def rootR : Brick := .mk 0 "r" [childW1, childW2] []

/-- A root brick named `r` owning the parameter `w` with identity 1. -/
def rootS1 : Brick := .mk 10 "r" [] [⟨1, "w"⟩]

/-- A distinct root brick, also named `r`, owning its own parameter `w`
with identity 2. -/
def rootS2 : Brick := .mk 11 "r" [] [⟨2, "w"⟩]

/-! ### Lemmas about `Path.parse` -/

theorem everyOther_length {α : Type} (l : List α) :
    2 * (everyOther l).length = l.length + l.length % 2 := by
  induction l using everyOther.induct with
  | case1 => simp [everyOther]
  | case2 a => simp [everyOther]
  | case3 a b rest ih => simp [everyOther, ih]; omega

theorem reSplitList_cons_sep (c : Char) (hc : isSepChar c = true) (cs : List Char) :
    reSplitList (c :: cs) = "" :: String.singleton c :: reSplitList cs := by
  simp [reSplitList, hc]

theorem reSplitList_cons_chunk (c : Char) (hc : isSepChar c = false) (cs : List Char)
    (r : String) (rs : List String) (h : reSplitList cs = r :: rs) :
    reSplitList (c :: cs) = (String.singleton c ++ r) :: rs := by
  simp [reSplitList, hc, h]

theorem reSplitList_length_odd (l : List Char) : (reSplitList l).length % 2 = 1 := by
  induction l with
  | nil => rfl
  | cons c cs ih =>
    cases hc : isSepChar c with
    | true =>
      rw [reSplitList_cons_sep c hc cs]
      simp only [List.length_cons]
      omega
    | false =>
      cases h : reSplitList cs with
      | nil => rw [h] at ih; simp at ih
      | cons r rs =>
        rw [reSplitList_cons_chunk c hc cs r rs h]
        rw [h] at ih
        simp only [List.length_cons] at ih ⊢
        omega

theorem parseNode_ok (a b : String) : ∃ s, parseNode a b = Except.ok s := by
  unfold parseNode
  split
  · exact ⟨.brick b, rfl⟩
  · simp only [beq_self_eq_true, if_true]
    exact ⟨.param b, rfl⟩

theorem parseNodes_ok (l : List (String × String)) : ∃ nodes, parseNodes l = Except.ok nodes := by
  induction l with
  | nil => exact ⟨[], rfl⟩
  | cons sp rest ih =>
    obtain ⟨nodes, hn⟩ := ih
    obtain ⟨s, hs⟩ := parseNode_ok sp.1 sp.2
    exact ⟨s :: nodes, by simp [parseNodes, hs, hn]⟩

theorem parse_total (s : String) : ∃ p, Path.parse s = Except.ok p := by
  simp only [Path.parse]
  have hodd : (reSplitList s.data).length % 2 = 1 := reSplitList_length_odd s.data
  have hlen : ((reSplit s).drop 1).length % 2 = 0 := by
    simp only [reSplit, List.length_drop]
    omega
  have h1 := everyOther_length ((reSplit s).drop 1)
  have h2 := everyOther_length (((reSplit s).drop 1).drop 1)
  have hdd : (((reSplit s).drop 1).drop 1).length = ((reSplit s).drop 1).length - 1 :=
    List.length_drop 1 ((reSplit s).drop 1)
  rw [if_pos]
  · obtain ⟨nodes, hn⟩ := parseNodes_ok
      (List.zip (everyOther ((reSplit s).drop 1)) (everyOther (((reSplit s).drop 1).drop 1)))
    rw [hn]
    exact ⟨⟨nodes⟩, rfl⟩
  · rw [Bool.and_eq_true, beq_iff_eq, beq_iff_eq]
    omega

theorem reSplitList_chunk (name : List Char) (h : ∀ c ∈ name, isSepChar c = false)
    (rest : List Char) (r : String) (rs : List String) (hr : reSplitList rest = r :: rs) :
    reSplitList (name ++ rest) = ⟨name ++ r.data⟩ :: rs := by
  induction name with
  | nil => simpa using hr
  | cons c cn ih =>
    have hc : isSepChar c = false := h c (List.mem_cons_self c cn)
    have ihn : reSplitList (cn ++ rest) = ⟨cn ++ r.data⟩ :: rs :=
      ih fun x hx => h x (List.mem_cons_of_mem c hx)
    show reSplitList (c :: (cn ++ rest)) = _
    rw [reSplitList_cons_chunk c hc (cn ++ rest) ⟨cn ++ r.data⟩ rs ihn]
    rfl

theorem reSplitList_str (segs : List Segment)
    (h : ∀ s ∈ segs, validName s.name = true) :
    reSplitList (Path.str ⟨segs⟩).data = "" :: segFlat segs := by
  induction segs with
  | nil => rfl
  | cons s rest ih =>
    have hrest : reSplitList (Path.str ⟨rest⟩).data = "" :: segFlat rest :=
      ih fun x hx => h x (List.mem_cons_of_mem s hx)
    have hs : ∀ c ∈ (s.name).data, isSepChar c = false := by
      have := h s (List.mem_cons_self s rest)
      simp only [validName, List.all_eq_true] at this
      intro c hc
      have := this c hc
      simpa using this
    have hchunk : reSplitList ((s.name).data ++ (Path.str ⟨rest⟩).data)
        = ⟨(s.name).data ++ "".data⟩ :: segFlat rest :=
      reSplitList_chunk (s.name).data hs _ "" (segFlat rest) hrest
    have hname : (⟨(s.name).data ++ "".data⟩ : String) = s.name := by
      show (⟨(s.name).data ++ []⟩ : String) = s.name
      rw [List.append_nil]
    rw [hname] at hchunk
    cases s with
    | brick n =>
      simp only [Segment.name] at hchunk
      show reSplitList ('/' :: (n.data ++ (Path.str ⟨rest⟩).data))
          = "" :: segFlat (Segment.brick n :: rest)
      rw [reSplitList_cons_sep '/' (by decide) _]
      rw [hchunk]
      rfl
    | param n =>
      simp only [Segment.name] at hchunk
      show reSplitList ('.' :: (n.data ++ (Path.str ⟨rest⟩).data))
          = "" :: segFlat (Segment.param n :: rest)
      rw [reSplitList_cons_sep '.' (by decide) _]
      rw [hchunk]
      rfl

theorem everyOther_segFlat (segs : List Segment) :
    everyOther (segFlat segs) = segs.map sepOf := by
  induction segs with
  | nil => rfl
  | cons s rest ih =>
    show everyOther (sepOf s :: s.name :: segFlat rest) = _
    rw [everyOther, ih]
    rfl

theorem everyOther_cons_segFlat (x : String) (segs : List Segment) :
    everyOther (x :: segFlat segs) = x :: segs.map Segment.name := by
  induction segs generalizing x with
  | nil => rfl
  | cons s rest ih =>
    show everyOther (x :: sepOf s :: s.name :: segFlat rest) = _
    rw [everyOther, ih]
    rfl

theorem segFlat_length (segs : List Segment) : (segFlat segs).length = 2 * segs.length := by
  induction segs with
  | nil => rfl
  | cons s rest ih => simp [segFlat, ih]; omega

theorem parseNodes_seg (segs : List Segment) :
    parseNodes (segs.map fun s => (sepOf s, s.name)) = Except.ok segs := by
  induction segs with
  | nil => rfl
  | cons s rest ih =>
    have hnode : parseNode (sepOf s) s.name = Except.ok s := by
      cases s with
      | brick n => rfl
      | param n => rfl
    simp [parseNodes, hnode, ih]

/-- Structural round trip: a path whose segment names are free of
separator characters is recovered exactly by `Path.parse` from its
string form. -/
theorem parse_str (p : Path) (h : ∀ s ∈ p.nodes, validName s.name = true) :
    Path.parse (Path.str p) = Except.ok p := by
  obtain ⟨segs⟩ := p
  simp only [Path.parse]
  have hsplit : reSplit (Path.str ⟨segs⟩) = "" :: segFlat segs := by
    simpa [reSplit] using reSplitList_str segs h
  rw [hsplit]
  have hdrop : (("" :: segFlat segs).drop 1) = segFlat segs := rfl
  rw [hdrop]
  have hsep : everyOther (segFlat segs) = segs.map sepOf := everyOther_segFlat segs
  have hparts : everyOther ((segFlat segs).drop 1) = segs.map Segment.name := by
    cases segs with
    | nil => rfl
    | cons s rest =>
      show everyOther (s.name :: segFlat rest) = _
      rw [everyOther_cons_segFlat]
      rfl
  rw [hsep, hparts]
  rw [if_pos]
  · have hzip : List.zip (segs.map sepOf) (segs.map Segment.name)
        = segs.map fun s => (sepOf s, s.name) := by
      rw [List.zip_map']
    rw [hzip, parseNodes_seg]
  · rw [Bool.and_eq_true, beq_iff_eq, beq_iff_eq]
    simp [segFlat_length]

/-! ### Lemmas about `Path.pyEq` -/

theorem segmentPyEq_iff (s t : Segment) : Segment.pyEq s t = true ↔ s.name = t.name := by
  cases s <;> cases t <;> simp [Segment.pyEq, Segment.name]

theorem Path.pyEq_iff (p q : Path) :
    Path.pyEq p q = true ↔ p.nodes.map Segment.name = q.nodes.map Segment.name := by
  obtain ⟨ns⟩ := p
  obtain ⟨ms⟩ := q
  simp only [Path.pyEq]
  induction ns generalizing ms with
  | nil =>
    cases ms with
    | nil => simp
    | cons m ms => simp
  | cons n ns ih =>
    cases ms with
    | nil => simp
    | cons m ms =>
      simp only [List.length_cons, List.zip_cons_cons, List.all_cons, List.map_cons,
        Bool.and_eq_true, beq_iff_eq, List.cons.injEq]
      constructor
      · rintro ⟨hlen, hpe, hall⟩
        refine ⟨(segmentPyEq_iff n m).1 hpe, ?_⟩
        refine (ih ms).1 ?_
        simp only [Bool.and_eq_true, beq_iff_eq]
        exact ⟨by omega, hall⟩
      · rintro ⟨hn, hrest⟩
        have := (ih ms).2 hrest
        simp only [Bool.and_eq_true, beq_iff_eq] at this
        exact ⟨by omega, (segmentPyEq_iff n m).2 hn, this.2⟩

theorem Path.pyEq_refl (p : Path) : Path.pyEq p p = true := by
  rw [Path.pyEq_iff]

/-! ### Lemmas about the frontier of `Selector.select` -/

theorem dedup_foldl_nodup (l : List Brick) (nb : List Brick) (h : nb.Nodup) :
    (l.foldl (fun nb m => if m ∈ nb then nb else nb ++ [m]) nb).Nodup := by
  induction l generalizing nb with
  | nil => exact h
  | cons m rest ih =>
    simp only [List.foldl_cons]
    by_cases hm : m ∈ nb
    · rw [if_pos hm]
      exact ih nb h
    · rw [if_neg hm]
      refine ih (nb ++ [m]) ?_
      simp [List.nodup_append, h, hm]

theorem selectStep_nodup_aux (cur : List (Option Brick)) (selfBricks : List Brick)
    (bname : String) (acc : List Brick) (h : acc.Nodup) :
    (cur.foldl
      (fun next b =>
        let children := match b with
          | some br => br.children
          | none => selfBricks
        let matching := children.filter fun child => child.name == bname
        matching.foldl (fun nb m => if m ∈ nb then nb else nb ++ [m]) next)
      acc).Nodup := by
  induction cur generalizing acc with
  | nil => exact h
  | cons b rest ih =>
    simp only [List.foldl_cons]
    exact ih _ (dedup_foldl_nodup _ acc h)

/-! ### Lemmas about the `OrderedDict` model and `dict_union` -/

theorem odContains_iff (m : List (Path × Param)) (k : Path) :
    odContains m k = true ↔ ∃ kv ∈ m, Path.pyEq kv.1 k = true := by
  simp [odContains, List.any_eq_true]

theorem odContains_odInsert_mono (m : List (Path × Param)) (k k' : Path) (v : Param)
    (h : odContains m k' = true) : odContains (odInsert m k v) k' = true := by
  unfold odInsert
  split
  · rw [odContains_iff] at h ⊢
    obtain ⟨kv, hmem, hpe⟩ := h
    by_cases hk : Path.pyEq kv.1 k = true
    · exact ⟨(kv.1, v), List.mem_map.2 ⟨kv, hmem, by rw [if_pos hk]⟩, hpe⟩
    · exact ⟨kv, List.mem_map.2 ⟨kv, hmem, by rw [if_neg hk]⟩, hpe⟩
  · rw [odContains_iff] at h ⊢
    obtain ⟨kv, hmem, hpe⟩ := h
    exact ⟨kv, List.mem_append_left _ hmem, hpe⟩

theorem odContains_odInsert_self (m : List (Path × Param)) (k k' : Path) (v : Param)
    (h : Path.pyEq k k' = true) : odContains (odInsert m k v) k' = true := by
  unfold odInsert
  split
  · rename_i hc
    rw [odContains_iff] at hc ⊢
    obtain ⟨kv, hmem, hpe⟩ := hc
    refine ⟨(kv.1, v), List.mem_map.2 ⟨kv, hmem, by rw [if_pos hpe]⟩, ?_⟩
    rw [Path.pyEq_iff] at hpe h ⊢
    rw [hpe, h]
  · rw [odContains_iff]
    exact ⟨(k, v), List.mem_append_right _ (List.mem_singleton.2 rfl), h⟩

theorem odContains_foldl_mono (items : List (Path × Param)) (m : List (Path × Param))
    (k' : Path) (h : odContains m k' = true) :
    odContains (items.foldl (fun r kv => odInsert r kv.1 kv.2) m) k' = true := by
  induction items generalizing m with
  | nil => exact h
  | cons kv rest ih =>
    simp only [List.foldl_cons]
    exact ih _ (odContains_odInsert_mono m kv.1 k' kv.2 h)

theorem odContains_foldl_of_mem (items : List (Path × Param)) (m : List (Path × Param))
    (k k' : Path) (v : Param) (hmem : (k, v) ∈ items) (h : Path.pyEq k k' = true) :
    odContains (items.foldl (fun r kv => odInsert r kv.1 kv.2) m) k' = true := by
  induction items generalizing m with
  | nil => cases hmem
  | cons kv rest ih =>
    simp only [List.foldl_cons]
    rcases List.mem_cons.1 hmem with heq | hmem'
    · subst heq
      exact odContains_foldl_mono rest _ k' (odContains_odInsert_self m k k' v h)
    · exact ih _ hmem'

theorem dict_union_two_collision (d1 d2 : List (Path × Param)) (k1 k2 : Path)
    (v1 v2 : Param) (h1 : (k1, v1) ∈ d1) (h2 : (k2, v2) ∈ d2)
    (he : Path.pyEq k1 k2 = true) :
    dict_union [d1, d2] = Except.error PyError.duplicatePathError := by
  unfold dict_union
  simp only [List.foldl_cons, List.foldl_nil]
  have hc0 : (d1.any fun kv => odContains [] kv.1) = false := by
    simp [odContains]
  rw [hc0]
  simp only [Bool.false_eq_true, if_false]
  have hc1 : (d2.any fun kv => odContains (d1.foldl (fun r kv => odInsert r kv.1 kv.2) []) kv.1) = true := by
    rw [List.any_eq_true]
    exact ⟨(k2, v2), h2, odContains_foldl_of_mem d1 [] k1 k2 v1 h1 he⟩
  rw [hc1]
  rfl

theorem strInsert_keys_nodup (m : List (String × Param)) (k : String) (v : Param)
    (h : (m.map Prod.fst).Nodup) : ((strInsert m k v).map Prod.fst).Nodup := by
  unfold strInsert
  split
  · have : ((m.map fun kv => if kv.1 == k then (kv.1, v) else kv).map Prod.fst) = m.map Prod.fst := by
      rw [List.map_map]
      refine List.map_congr_left ?_
      intro kv _
      simp only [Function.comp_apply]
      split <;> rfl
    rw [this]
    exact h
  · rename_i hc
    have hk : k ∉ m.map Prod.fst := by
      intro hmem
      obtain ⟨kv, hkv, hfst⟩ := List.mem_map.1 hmem
      exact hc (List.any_eq_true.2 ⟨kv, hkv, by simp [hfst]⟩)
    simp [List.nodup_append, h, hk]

theorem strOD_foldl_nodup (l : List (Path × Param)) (m : List (String × Param))
    (h : (m.map Prod.fst).Nodup) :
    ((l.foldl (fun m kv => strInsert m (Path.str kv.1) kv.2) m).map Prod.fst).Nodup := by
  induction l generalizing m with
  | nil => exact h
  | cons kv rest ih =>
    simp only [List.foldl_cons]
    exact ih _ (strInsert_keys_nodup m (Path.str kv.1) kv.2 h)

theorem strOD_nodup (l : List (Path × Param)) : ((strOD l).map Prod.fst).Nodup :=
  strOD_foldl_nodup l [] (by simp)

/-! ### The claims -/

/-- C1: the claim says that after construction `Model.variables` is the
complete set of graph nodes reachable from the cost node, so for a cost
`f(a, b, c)` it should contain `a`, `b`, `c` and the `f`-node. The code
instead adds only the leaked loop variable `inp` — the last input of
each visited apply node — so on `f(a, b, c)` it computes `variables =
{c}`, missing `a`, `b` and the `f`-node. -/
theorem claim_C1_variables_eval :
    Model.variables mF = Except.ok [gC]
    ∧ gA ∉ [gC] ∧ gB ∉ [gC] ∧ gF ∉ [gC] :=
  ⟨rfl, by decide, by decide, by decide⟩

/-- C2: the claim says `Model.input_variables` contains exactly the
reachable ownerless non-shared non-constant leaves. For the cost
`g(c, d)` with two free leaves, `c` is reachable and satisfies
`is_input`, yet the code computes `input_variables = [d]` only, because
`variables` only ever receives the last input of each apply node. -/
theorem claim_C2_input_variables_eval :
    Model.input_variables mG = Except.ok [gL2]
    ∧ is_input gL1 = true ∧ gL1 ∉ [gL2] :=
  ⟨rfl, rfl, by decide⟩

/-- C3 counterexample: the string `"a/b"` violates the grammar (it does
not begin with a separator), yet `Path.parse` returns a `Path` — with
the leading `"a"` silently dropped — instead of raising any error. -/
theorem claim_C3_counterexample : Path.parse "a/b" = Except.ok ⟨[Segment.brick "b"]⟩ :=
  rfl

/-- C3 (amended): `Path.parse` never raises on any input string: the
element-count assertion always holds (the split list always has an even
length after dropping its first element), a string that does not begin
with a separator has the text before the first separator silently
dropped, and the unrecognized-separator branch is unreachable; parse
returns a `Path` for every string. -/
theorem claim_C3_parse_never_raises (s : String) : ∃ p, Path.parse s = Except.ok p :=
  parse_total s

/-- C4 counterexample: inside the single root `rootR` (named `r`), the
two distinct parameters `w` of the two same-named children `c` both
produce the full-path key `"/r/c.w"`, yet `Selector.get_params` returns
a mapping (with the later parameter having silently overwritten the
earlier one) instead of raising `DuplicatePathError`. -/
theorem claim_C4_counterexample :
    Selector.get_params [some rootR] none = Except.ok [("/r/c.w", ⟨2, "w"⟩)]
    ∧ (⟨1, "w"⟩ : Param) ≠ (⟨2, "w"⟩ : Param) :=
  ⟨rfl, by decide⟩

/-- C4 (amended): a full-path key collision between parameters of two
different roots raises a fatal `DuplicatePathError` and no mapping is
returned; a collision arising within a single root is silently
resolved last-write-wins by the per-root dict, and any mapping that is
returned has unique string keys. -/
theorem claim_C4_duplicate_paths :
    (∀ (r1 r2 : Brick) (f : Option String) (k1 k2 : Path) (v1 v2 : Param),
      (k1, v1) ∈ collect f r1 → (k2, v2) ∈ collect f r2 → Path.pyEq k1 k2 = true →
      Selector.get_params [some r1, some r2] f = Except.error PyError.duplicatePathError)
    ∧ (∀ (bricks : List (Option Brick)) (f : Option String) (od : List (String × Param)),
      Selector.get_params bricks f = Except.ok od → (od.map Prod.fst).Nodup) := by
  constructor
  · intro r1 r2 f k1 k2 v1 v2 h1 h2 he
    show (match dict_union [collect f r1, collect f r2] with
        | Except.error e => Except.error e
        | Except.ok result => Except.ok (strOD result))
      = Except.error PyError.duplicatePathError
    rw [dict_union_two_collision (collect f r1) (collect f r2) k1 k2 v1 v2 h1 h2 he]
  · intro bricks f od hok
    unfold Selector.get_params at hok
    cases hca : collectAll f bricks with
    | error e => rw [hca] at hok; exact Except.noConfusion hok
    | ok dicts =>
      rw [hca] at hok
      have hok2 : (match dict_union dicts with
          | Except.error e => Except.error e
          | Except.ok result => Except.ok (strOD result)) = Except.ok od := hok
      cases hdu : dict_union dicts with
      | error e => rw [hdu] at hok2; exact Except.noConfusion hok2
      | ok result =>
        rw [hdu] at hok2
        injection hok2 with hres
        rw [← hres]
        exact strOD_nodup result

/-- C4 witness: two distinct roots both named `r`, each owning a
parameter `w`, collide on the key `"/r.w"` and raise
`DuplicatePathError`; a successful aggregation over one root returns a
mapping with distinct string keys. -/
theorem claim_C4_duplicate_paths_witness :
    Selector.get_params [some rootS1, some rootS2] none
        = Except.error PyError.duplicatePathError
    ∧ (([("/r.w", (⟨1, "w"⟩ : Param))]).map Prod.fst).Nodup := by
  constructor
  · exact claim_C4_duplicate_paths.1 rootS1 rootS2 none
      ⟨[.brick "r", .param "w"]⟩ ⟨[.brick "r", .param "w"]⟩ ⟨1, "w"⟩ ⟨2, "w"⟩
      (by decide) (by decide) (by decide)
  · exact claim_C4_duplicate_paths.2 [some rootS1] none [("/r.w", ⟨1, "w"⟩)] rfl

/-- C5: round-trip law — for every `Path` built purely from valid
segment names (names containing no separator characters),
`Path.parse(str(p)) == p`, where `==` is the code's `Path.__eq__`. -/
theorem claim_C5_roundtrip (p : Path) (h : ∀ s ∈ p.nodes, validName s.name = true) :
    ∃ q, Path.parse (Path.str p) = Except.ok q ∧ Path.pyEq q p = true :=
  ⟨p, parse_str p h, Path.pyEq_refl p⟩

/-- C5 witness: the round trip at the concrete path `/a.w`. -/
theorem claim_C5_roundtrip_witness :
    (∀ s ∈ (Path.mk [Segment.brick "a", Segment.param "w"]).nodes, validName s.name = true)
    ∧ ∃ q, Path.parse (Path.str ⟨[Segment.brick "a", Segment.param "w"]⟩) = Except.ok q
        ∧ Path.pyEq q ⟨[Segment.brick "a", Segment.param "w"]⟩ = true :=
  ⟨by decide, claim_C5_roundtrip ⟨[Segment.brick "a", Segment.param "w"]⟩ (by decide)⟩

/-- C6 counterexample: `Selector.select` applied to a `Path` with no
segments returns a `Selector` whose frontier is the initial sentinel
`[None]`, not the declared root set `[rootR]`. -/
theorem claim_C6_counterexample :
    Selector.select [rootR] ⟨[]⟩ = Except.ok (SelectResult.sel [none])
    ∧ SelectResult.sel [none] ≠ SelectResult.sel [some rootR] :=
  ⟨rfl, by decide⟩

/-- C6 (amended): `Model.select` with no path argument returns a
`Selector` whose frontier is exactly the declared top-level root bricks
in their original order; but `Selector.select` applied to a `Path` with
no segments returns a `Selector` over the initial sentinel `[None]`,
not over the roots. -/
theorem claim_C6_empty_selection (m : Model) (bricks : List Brick) :
    Model.select m none = Except.ok (SelectResult.sel (m.top_bricks.map some))
    ∧ Selector.select bricks ⟨[]⟩ = Except.ok (SelectResult.sel [none]) :=
  ⟨rfl, rfl⟩

/-- C7: the else-branch of the separator dispatch in `Path.parse` is
unreachable — the dispatch returns a segment for every separator string
because the preceding `elif` compares `Path.param_separator` with
itself, and consequently `Path.parse` never raises the
`ValueError` (it in fact succeeds on every input string). -/
theorem claim_C7_dead_branch :
    (∀ (sep part : String), ∃ seg, parseNode sep part = Except.ok seg)
    ∧ (∀ (s : String), ∃ p, Path.parse s = Except.ok p) :=
  ⟨parseNode_ok, parse_total⟩

/-- C8: frontier dedup invariant — the frontier built by processing a
`NodeSegment` in `Selector.select` (for any selector bricks, any
incoming frontier and any segment name) contains no duplicate brick
references. -/
theorem claim_C8_frontier_nodup (selfBricks : List Brick) (cur : List (Option Brick))
    (bname : String) : (selectStep selfBricks cur bname).Nodup := by
  unfold selectStep
  exact selectStep_nodup_aux cur selfBricks bname [] List.nodup_nil

/-- C9: `Path` equality and hashing ignore segment kind — for every
name `n`, `Path([BrickName(n)])` equals (under `Path.__eq__`) and
hashes identically (for every element hash `h` and tuple hash `ht`) to
`Path([ParamName(n)])`, even though their string forms `/n` and `.n`
differ. -/
theorem claim_C9_kind_blind (n : String) (h : String → Nat) (ht : List Nat → Nat) :
    Path.pyEq ⟨[Segment.brick n]⟩ ⟨[Segment.param n]⟩ = true
    ∧ Path.pyHash h ht ⟨[Segment.brick n]⟩ = Path.pyHash h ht ⟨[Segment.param n]⟩
    ∧ (Path.str ⟨[Segment.brick n]⟩ == Path.str ⟨[Segment.param n]⟩) = false := by
  refine ⟨by rw [Path.pyEq_iff]; rfl, rfl, ?_⟩
  rw [beq_eq_false_iff_ne]
  intro he
  have hd : ('/' :: n.data) ++ [] = ('.' :: n.data) ++ [] := congrArg String.data he
  rw [List.append_nil, List.append_nil] at hd
  injection hd with h1 h2
  exact absurd h1 (by decide)

/-- C10: selecting a path whose first segment is a `ParamSegment` fails:
the `ParamName` branch of `Selector.select` runs while the frontier is
still the sentinel `[None]`, and the inner `get_params` dereferences
`None` (`AttributeError`) instead of searching the declared roots. -/
theorem claim_C10_param_first (bricks : List Brick) (pname : String) :
    Selector.select bricks ⟨[.param pname]⟩ = Except.error PyError.attributeError :=
  rfl

end Blocks
